import Mathlib

/-!
Verification of the SINGA distributed `Communicator`
(`src/include/singa/io/communicator.h`).

The repository ships only the declaration header; the method bodies
(`communicator.cc`) are not under `src/`.  Definitions below that embed the
missing bodies are marked `Modelled from the spec:` and follow the
natural-language specification (`spec.md`) word by word; definitions taken
from the header itself (the `MPICHECK` / `NCCLCHECK` macros, the class
fields and constructor signatures) cite their line numbers.

Floating-point payloads are modelled by exact integers, as licensed by the
spec's own testable properties ("verified by exact integer test values").
-/

/- ## Generic list helpers: buffer reads and writes

`writeAt buf off d` overwrites `buf` starting at element offset `off` with
the elements of `d` (device-memory copy into a staging buffer).
`readAt buf off len` reads `len` elements starting at offset `off`. -/

def writeAt (buf : List Int) (off : Nat) (d : List Int) : List Int :=
  buf.take off ++ d ++ buf.drop (off + d.length)

def readAt (buf : List Int) (off len : Nat) : List Int :=
  (buf.drop off).take len

theorem length_writeAt (buf : List Int) (off : Nat) (d : List Int)
    (h : off + d.length ≤ buf.length) :
    (writeAt buf off d).length = buf.length := by
  simp [writeAt]
  omega

theorem readAt_writeAt_self (buf : List Int) (off : Nat) (d : List Int)
    (h : off + d.length ≤ buf.length) :
    readAt (writeAt buf off d) off d.length = d := by
  have hoff : (buf.take off).length = off := by
    simp; omega
  simp [writeAt, readAt, List.drop_append_eq_append_drop, hoff,
    List.take_append_eq_append_take]

theorem readAt_writeAt_below (buf : List Int) (off' off len : Nat) (d : List Int)
    (h1 : off + len ≤ off') (h2 : off' ≤ buf.length) :
    readAt (writeAt buf off' d) off len = readAt buf off len := by
  have hoff : (buf.take off').length = off' := by simp; omega
  have hd : ((buf.take off').drop off).length = off' - off := by simp; omega
  simp only [writeAt, readAt, List.append_assoc, List.drop_append_eq_append_drop,
    List.take_append_eq_append_take, hoff, hd]
  have h3 : off - off' = 0 := by omega
  have h4 : len - (off' - off) = 0 := by omega
  simp [h3, h4, List.drop_take, List.take_take]
  omega

theorem readAt_append_left (l₁ l₂ : List Int) (off len : Nat)
    (h : off + len ≤ l₁.length) :
    readAt (l₁ ++ l₂) off len = readAt l₁ off len := by
  have hd : (l₁.drop off).length = l₁.length - off := by simp
  simp only [readAt, List.drop_append_eq_append_drop,
    List.take_append_eq_append_take, hd]
  have h3 : off - l₁.length = 0 := by omega
  have h4 : len - (l₁.length - off) = 0 := by omega
  simp [h3, h4]

theorem readAt_take (l : List Int) (t off len : Nat) (h : off + len ≤ t) :
    readAt (l.take t) off len = readAt l off len := by
  simp only [readAt, List.drop_take, List.take_take]
  congr 1
  omega

/- ## Elementwise sums across ranks -/

/-- Elementwise (vector) addition of two equally shaped device buffers. -/
def addVec (a b : List Int) : List Int := List.zipWith (· + ·) a b

/-- Modelled from the spec: the reduction substrate's sum all-reduce
("every participant contributes a value and all participants receive the
same combined (here, summed) result", glossary; §4.3).  Given the per-rank
contents of one device region, it yields the elementwise sum across ranks. -/
def sumAcross : List (List Int) → List Int
  | [] => []
  | [v] => v
  | v :: rest => addVec v (sumAcross rest)

/-- Specification-side definition of the elementwise sum of `rows`
(each of length `n`): entry `j` is the sum over all rows of entry `j`.
Written from the spec's words ("the tensor contains the sum of that
tensor's pre-call values across all ranks"), to compare with `sumAcross`. -/
def elementwiseSum (n : Nat) (rows : List (List Int)) : List Int :=
  (List.range n).map (fun j => (rows.map (fun v => v.getD j 0)).sum)

theorem getD_map_range (l : List Int) :
    (List.range l.length).map (fun j => l.getD j 0) = l := by
  induction l with
  | nil => rfl
  | cons x xs ih =>
    rw [List.length_cons, List.range_succ_eq_map, List.map_cons, List.map_map]
    simp only [List.getD_cons_zero, Function.comp_def, List.getD_cons_succ]
    exact congrArg (List.cons x) ih

theorem length_sumAcross (rows : List (List Int)) (n : Nat)
    (hne : rows ≠ []) (hn : ∀ v ∈ rows, v.length = n) :
    (sumAcross rows).length = n := by
  induction rows with
  | nil => exact absurd rfl hne
  | cons v rest ih =>
    cases rest with
    | nil => simpa using hn v (by simp)
    | cons w ws =>
      have hv : v.length = n := hn v (by simp)
      have hr : (sumAcross (w :: ws)).length = n := by
        refine ih (by simp) ?_
        intro u hu
        exact hn u (by simp [hu])
      simp [sumAcross, addVec, hv, hr]

theorem sumAcross_eq_elementwiseSum (rows : List (List Int)) (n : Nat)
    (hne : rows ≠ []) (hn : ∀ v ∈ rows, v.length = n) :
    sumAcross rows = elementwiseSum n rows := by
  induction rows with
  | nil => exact absurd rfl hne
  | cons v rest ih =>
    have hv : v.length = n := hn v (by simp)
    cases rest with
    | nil =>
      simp only [sumAcross, elementwiseSum, List.map_cons, List.map_nil,
        List.sum_cons, List.sum_nil]
      conv_lhs => rw [← getD_map_range v]
      rw [hv]
      simp
    | cons w ws =>
      have hrest : sumAcross (w :: ws) = elementwiseSum n (w :: ws) := by
        refine ih (by simp) ?_
        intro u hu
        exact hn u (by simp [hu])
      show addVec v (sumAcross (w :: ws)) = _
      rw [hrest]
      have hv' : v = (List.range n).map (fun j => v.getD j 0) := by
        conv_lhs => rw [← getD_map_range v]
        rw [hv]
      simp only [elementwiseSum, addVec]
      conv_lhs => rw [hv']
      rw [List.zipWith_map_left, List.zipWith_map_right, List.zipWith_same]
      refine List.map_congr_left ?_
      intro j hj
      simp

theorem readAt_addVec (a b : List Int) (off len : Nat) :
    readAt (addVec a b) off len = addVec (readAt a off len) (readAt b off len) := by
  simp [readAt, addVec, ← List.drop_zipWith, ← List.take_zipWith]

theorem readAt_sumAcross (rows : List (List Int)) (off len : Nat) :
    readAt (sumAcross rows) off len
      = sumAcross (rows.map (fun row => readAt row off len)) := by
  induction rows with
  | nil => simp [sumAcross, readAt]
  | cons v rest ih =>
    cases rest with
    | nil => simp [sumAcross]
    | cons w ws =>
      show readAt (addVec v (sumAcross (w :: ws))) off len = _
      rw [readAt_addVec, ih]
      rfl

/- ## Data model: per-rank device state

One rank's device-resident memory, mirroring the fields of
`class Communicator` (header lines 69-72): the four fused staging buffers,
plus the caller's tensors (supplied per call, never owned — spec §3).
Half-precision buffer contents are carried opaquely. -/

structure RankState where
  tensors : List (List Int)
  fusedSendBuff : List Int
  fusedRecvBuff : List Int
  fusedSendBuffHalf : List Int
  fusedRecvBuffHalf : List Int
deriving DecidableEq

/-- The tensor currently bound at slot `i` of a rank (a caller tensor
passed by mutable reference, identified by its index). -/
def getTensor (r : RankState) (i : Nat) : List Int :=
  r.tensors.getD i []

/-- Overwrite the tensor at slot `i` (in-place mutation of caller memory). -/
def setTensor (r : RankState) (i : Nat) (d : List Int) : RankState :=
  { r with tensors := r.tensors.set i d }

theorem getTensor_setTensor_ne (r : RankState) (i j : Nat) (d : List Int)
    (h : i ≠ j) : getTensor (setTensor r i d) j = getTensor r j := by
  simp [getTensor, setTensor, List.getD, List.getElem?_set_ne h]

theorem getTensor_setTensor_self (r : RankState) (i : Nat) (d : List Int)
    (h : i < r.tensors.length) : getTensor (setTensor r i d) i = d := by
  simp [getTensor, setTensor, List.getD, List.getElem?_set_self' (l := r.tensors),
    List.getElem?_eq_getElem h]

theorem length_tensors_setTensor (r : RankState) (i : Nat) (d : List Int) :
    (setTensor r i d).tensors.length = r.tensors.length := by
  simp [setTensor]

/- ## Modelled operations

`Modelled from the spec:` the bodies of `Communicator::synch`,
`Communicator::fusedSynch` and `Communicator::wait` (declared at header
lines 87, 88 and 91; the defining `communicator.cc` is not under `src/`).
Ranks run in lock step — the spec (§5) requires every rank to call the same
sequence of synchronization operations — so an operation acts on the list
of all ranks' states at once. -/

/-- Modelled from the spec, §4.3: single-tensor full-precision sync
"reduces the tensor's values across all ranks using a sum reduction, in
place — the tensor's own device memory is both source and destination". -/
def execSynch (rs : List RankState) (i : Nat) : List RankState :=
  let s := sumAcross (rs.map (fun r => getTensor r i))
  rs.map (fun r => setTensor r i s)

/-- Modelled from the spec, §4.4 step 1: stage-in — "copy each tensor's
data, in sequence order, into consecutive offset ranges of the send staging
buffer (offset = running sum of prior tensors' element counts)". -/
def packInto (buf : List Int) (off : Nat) : List (List Int) → List Int
  | [] => buf
  | t :: ts => packInto (writeAt buf off t) (off + t.length) ts

/-- Total element count of a fused batch on one rank. -/
def fusedTotal (r : RankState) (is : List Nat) : Nat :=
  (is.map (fun i => (getTensor r i).length)).sum

/-- Stage-in on one rank: pack the batch into `fusedSendBuff`. -/
def stageInRank (r : RankState) (is : List Nat) : RankState :=
  { r with fusedSendBuff := packInto r.fusedSendBuff 0 (is.map (getTensor r)) }

/-- The reduced packed region is written to `fusedRecvBuff` (§4.4 step 2:
"a single sum-reduction over the entire packed region"). -/
def reduceRank (packed : List Int) (r : RankState) : RankState :=
  { r with fusedRecvBuff := writeAt r.fusedRecvBuff 0 packed }

/-- Modelled from the spec, §4.4 step 3: stage-out — "copying the packed
receive buffer back out to each tensor's original memory, in the same
offset order used for packing". -/
def stageOutGo (r : RankState) (is : List Nat) (off : Nat) : RankState :=
  match is with
  | [] => r
  | i :: rest =>
    let len := (getTensor r i).length
    stageOutGo (setTensor r i (readAt r.fusedRecvBuff off len)) rest (off + len)

/-- Modelled from the spec, §4.4: the fused full-precision synchronization
over the batch of tensor slots `is`: stage-in, one sum-reduction over the
packed region, stage-out. -/
def execFusedSynch (rs : List RankState) (is : List Nat) : List RankState :=
  let rs1 := rs.map (fun r => stageInRank r is)
  let packed := sumAcross (rs1.map (fun r => r.fusedSendBuff.take (fusedTotal r is)))
  (rs1.map (reduceRank packed)).map (fun r => stageOutGo r is 0)

/-- A synchronization entry point enqueued by the caller. -/
inductive Op where
  | synch (i : Nat)
  | fusedSynch (is : List Nat)
deriving DecidableEq

/-- Retire one enqueued operation (runs on the device queues). -/
def execOp (rs : List RankState) : Op → List RankState
  | Op.synch i => execSynch rs i
  | Op.fusedSynch is => execFusedSynch rs is

/-- Modelled from the spec: the state of a group of communicators, one per
rank.  `maxSize` is the staging capacity in elements (header line 73);
`pending` holds enqueued-but-unretired device work (§5: synchronization
calls "enqueue work and return immediately"); `errored` records whether a
fatal substrate error has been detected (§7). -/
structure GroupState where
  maxSize : Nat
  ranks : List RankState
  pending : List Op
  errored : Bool
deriving DecidableEq

/-- Modelled from the spec, §4.3: `Communicator::synch` (header line 87)
"does not block the caller; returns once the operation is enqueued". -/
def synch (g : GroupState) (i : Nat) : GroupState :=
  { g with pending := g.pending ++ [Op.synch i] }

/-- Modelled from the spec, §4.4: `Communicator::fusedSynch` (header line
88) enqueues the fused stage-in / reduce / stage-out pipeline.  No capacity
check is performed (§4.4: "this is treated as a precondition, not a
runtime-checked error"; §9). -/
def fusedSynch (g : GroupState) (is : List Nat) : GroupState :=
  { g with pending := g.pending ++ [Op.fusedSynch is] }

/-- Modelled from the spec, §4.6: `Communicator::wait` (header line 91)
"blocks the calling thread until every previously enqueued operation on all
three ExecutionQueues has retired". -/
def wait (g : GroupState) : GroupState :=
  { g with ranks := g.pending.foldl execOp g.ranks, pending := [] }

/-- Claim C6 --- The wait operation is idempotent: with no pending enqueued
work `wait` is a no-op, and two consecutive `wait`s with no intervening
enqueue equal one (no error, no change to any tensor's contents). -/
theorem wait_idempotent (g : GroupState) :
    (g.pending = [] → wait g = g) ∧ wait (wait g) = wait g := by
  constructor
  · intro h
    cases g
    simp_all [wait]
  · simp [wait]

/-- Witness for C6 at a concrete quiescent state. -/
theorem wait_idempotent_witness :
    wait { maxSize := 4, ranks := [], pending := [], errored := false } =
      { maxSize := 4, ranks := [], pending := [], errored := false } ∧
    wait (wait { maxSize := 4, ranks := [], pending := [], errored := false }) =
      wait { maxSize := 4, ranks := [], pending := [], errored := false } :=
  ⟨(wait_idempotent _).1 rfl, (wait_idempotent _).2⟩

/- ## Characterizing sequences of single-tensor syncs -/

/-- Apply a family of in-place tensor overwrites: slot `i` receives `σ i`,
for each `i` in `is`, in order. -/
def setMany (σ : Nat → List Int) (is : List Nat) (r : RankState) : RankState :=
  is.foldl (fun r' i => setTensor r' i (σ i)) r

theorem setMany_cons (σ : Nat → List Int) (i : Nat) (is : List Nat) (r : RankState) :
    setMany σ (i :: is) r = setMany σ is (setTensor r i (σ i)) := rfl

theorem length_tensors_setMany (σ : Nat → List Int) (is : List Nat) (r : RankState) :
    (setMany σ is r).tensors.length = r.tensors.length := by
  induction is generalizing r with
  | nil => rfl
  | cons i rest ih =>
    rw [setMany_cons, ih, length_tensors_setTensor]

theorem setMany_congr (σ σ' : Nat → List Int) (is : List Nat) (r : RankState)
    (h : ∀ i ∈ is, σ i = σ' i) : setMany σ is r = setMany σ' is r := by
  induction is generalizing r with
  | nil => rfl
  | cons i rest ih =>
    rw [setMany_cons, setMany_cons, h i (by simp),
      ih _ (fun j hj => h j (by simp [hj]))]

theorem getTensor_setMany (σ : Nat → List Int) (is : List Nat) (r : RankState)
    (hnd : is.Nodup) (hrange : ∀ i ∈ is, i < r.tensors.length) (j : Nat) :
    getTensor (setMany σ is r) j = if j ∈ is then σ j else getTensor r j := by
  induction is generalizing r with
  | nil => simp [setMany]
  | cons i rest ih =>
    obtain ⟨hni, hndr⟩ := List.nodup_cons.mp hnd
    rw [setMany_cons]
    have hrange' : ∀ k ∈ rest, k < (setTensor r i (σ i)).tensors.length := by
      intro k hk
      rw [length_tensors_setTensor]
      exact hrange k (by simp [hk])
    rw [ih _ hndr hrange']
    by_cases hj : j ∈ rest
    · simp [hj]
    · by_cases hji : j = i
      · subst hji
        rw [getTensor_setTensor_self r j (σ j) (hrange j (by simp))]
        simp
      · rw [getTensor_setTensor_ne r i j (σ i) (fun he => hji he.symm)]
        simp [hj, hji]

/-- Retiring k enqueued single-tensor syncs, each followed by a wait,
starting from a quiescent group. -/
theorem foldl_wait_synch (g : GroupState) (is : List Nat) (hp : g.pending = []) :
    is.foldl (fun g' i => wait (synch g' i)) g
      = { g with ranks := is.foldl execSynch g.ranks, pending := [] } := by
  induction is generalizing g with
  | nil =>
    cases g
    simp_all
  | cons i rest ih =>
    have h1 : wait (synch g i) = { g with ranks := execSynch g.ranks i, pending := [] } := by
      simp [wait, synch, hp, execOp]
    rw [List.foldl_cons, h1, ih _ rfl]
    simp

theorem foldl_execSynch_eq_setMany (rs : List RankState) (is : List Nat)
    (hnd : is.Nodup) (hrange : ∀ r ∈ rs, ∀ i ∈ is, i < r.tensors.length) :
    is.foldl execSynch rs
      = rs.map (setMany (fun k => sumAcross (rs.map (fun r => getTensor r k))) is) := by
  induction is generalizing rs with
  | nil =>
    symm
    have h : ∀ r ∈ rs,
        setMany (fun k => sumAcross (List.map (fun r => getTensor r k) rs)) [] r = r :=
      fun r _ => rfl
    rw [List.map_congr_left h, List.map_id']
    rfl
  | cons i rest ih =>
    obtain ⟨hni, hndr⟩ := List.nodup_cons.mp hnd
    rw [List.foldl_cons]
    have hstep : execSynch rs i
        = rs.map (fun r => setTensor r i (sumAcross (rs.map (fun r => getTensor r i)))) := rfl
    have hrange' : ∀ r' ∈ execSynch rs i, ∀ k ∈ rest, k < r'.tensors.length := by
      intro r' hr' k hk
      rw [hstep] at hr'
      obtain ⟨r, hr, hre⟩ := List.mem_map.mp hr'
      rw [← hre, length_tensors_setTensor]
      exact hrange r hr k (by simp [hk])
    rw [ih (execSynch rs i) hndr hrange']
    have hgt : ∀ k ∈ rest,
        sumAcross ((execSynch rs i).map (fun r => getTensor r k))
          = sumAcross (rs.map (fun r => getTensor r k)) := by
      intro k hk
      have hki : i ≠ k := fun he => hni (he ▸ hk)
      rw [hstep, List.map_map]
      congr 1
      refine List.map_congr_left ?_
      intro r hr
      exact getTensor_setTensor_ne r i k _ hki
    have hA : (execSynch rs i).map
          (setMany (fun k => sumAcross ((execSynch rs i).map (fun r => getTensor r k))) rest)
        = (execSynch rs i).map
          (setMany (fun k => sumAcross (rs.map (fun r => getTensor r k))) rest) :=
      List.map_congr_left (fun r' _ => setMany_congr _ _ rest r' hgt)
    rw [hA, hstep, List.map_map]
    refine List.map_congr_left ?_
    intro r hr
    rw [Function.comp_apply]
    exact (setMany_cons _ i rest r).symm

/-- Claim C1 --- Full-precision single-tensor sync followed by wait leaves,
on every rank, the elementwise sum of the pre-call values across ranks,
identical on every rank. -/
theorem synch_sums_across_ranks (g : GroupState) (i n : Nat)
    (hp : g.pending = [])
    (hne : g.ranks ≠ [])
    (hrange : ∀ r ∈ g.ranks, i < r.tensors.length)
    (hlen : ∀ r ∈ g.ranks, (getTensor r i).length = n) :
    (wait (synch g i)).ranks.map (fun r => getTensor r i)
      = List.replicate g.ranks.length
          (elementwiseSum n (g.ranks.map (fun r => getTensor r i))) := by
  have h1 : (wait (synch g i)).ranks = execSynch g.ranks i := by
    simp [wait, synch, hp, execOp]
  rw [h1]
  have hrows_ne : g.ranks.map (fun r => getTensor r i) ≠ [] := by
    intro h
    exact hne (List.map_eq_nil_iff.mp h)
  have hrows_len : ∀ v ∈ g.ranks.map (fun r => getTensor r i), v.length = n := by
    intro v hv
    obtain ⟨r, hr, hre⟩ := List.mem_map.mp hv
    rw [← hre]
    exact hlen r hr
  rw [← sumAcross_eq_elementwiseSum _ n hrows_ne hrows_len]
  show (g.ranks.map _).map _ = _
  rw [List.map_map]
  have : ∀ r ∈ g.ranks,
      (getTensor (setTensor r i (sumAcross (g.ranks.map (fun r => getTensor r i)))) i)
        = sumAcross (g.ranks.map (fun r => getTensor r i)) := by
    intro r hr
    exact getTensor_setTensor_self r i _ (hrange r hr)
  calc (g.ranks.map fun r => getTensor
          (setTensor r i (sumAcross (g.ranks.map fun r => getTensor r i))) i)
      = g.ranks.map (fun _ => sumAcross (g.ranks.map fun r => getTensor r i)) :=
        List.map_congr_left this
    _ = List.replicate g.ranks.length (sumAcross (g.ranks.map fun r => getTensor r i)) := by
        rw [List.map_const']

/-- Concrete 4-rank group used by the C1 witness (the spec's own example:
rank R holds value R, so the result is 0+1+2+3 = 6 on every rank). -/
def c1Group : GroupState :=
  { maxSize := 4
    ranks :=
      [ { tensors := [[0]], fusedSendBuff := [], fusedRecvBuff := [],
          fusedSendBuffHalf := [], fusedRecvBuffHalf := [] }
      , { tensors := [[1]], fusedSendBuff := [], fusedRecvBuff := [],
          fusedSendBuffHalf := [], fusedRecvBuffHalf := [] }
      , { tensors := [[2]], fusedSendBuff := [], fusedRecvBuff := [],
          fusedSendBuffHalf := [], fusedRecvBuffHalf := [] }
      , { tensors := [[3]], fusedSendBuff := [], fusedRecvBuff := [],
          fusedSendBuffHalf := [], fusedRecvBuffHalf := [] } ]
    pending := []
    errored := false }

/-- Witness for C1: four ranks holding 0, 1, 2, 3 all end with 6. -/
theorem synch_sums_across_ranks_witness :
    (wait (synch c1Group 0)).ranks.map (fun r => getTensor r 0) = List.replicate 4 [6] := by
  rw [synch_sums_across_ranks c1Group 0 1 rfl (by decide) (by decide) (by decide)]
  decide

/- ## Packing and unpacking at running-sum offsets -/

/-- Running-sum offset of (the first occurrence of) slot `j` in the batch
`is`, where `len i` is the element count of the tensor at slot `i`: the sum
of the element counts of the tensors preceding `j` in sequence order
(spec §4.4: "offset = running sum of prior tensors' element counts"). -/
def offsetIn (len : Nat → Nat) (is : List Nat) (j : Nat) : Nat :=
  match is with
  | [] => 0
  | i :: rest => if i = j then 0 else len i + offsetIn len rest j

theorem offsetIn_congr (len len' : Nat → Nat) (is : List Nat) (j : Nat)
    (h : ∀ k ∈ is, len k = len' k) : offsetIn len is j = offsetIn len' is j := by
  induction is with
  | nil => rfl
  | cons i rest ih =>
    simp only [offsetIn]
    by_cases hij : i = j
    · simp [hij]
    · simp [hij, h i (by simp), ih (fun k hk => h k (by simp [hk]))]

theorem offsetIn_add_le (len : Nat → Nat) (is : List Nat) (j : Nat) (hj : j ∈ is) :
    offsetIn len is j + len j ≤ (is.map len).sum := by
  induction is with
  | nil => cases hj
  | cons i rest ih =>
    by_cases hij : i = j
    · subst hij
      simp [offsetIn]
    · have hjr : j ∈ rest := by
        rcases List.mem_cons.mp hj with h | h
        · exact absurd h.symm hij
        · exact h
      have := ih hjr
      simp only [offsetIn, hij, if_false, List.map_cons, List.sum_cons]
      omega

theorem length_packInto (ts : List (List Int)) (buf : List Int) (off : Nat)
    (h : off + (ts.map List.length).sum ≤ buf.length) :
    (packInto buf off ts).length = buf.length := by
  induction ts generalizing buf off with
  | nil => rfl
  | cons t ts ih =>
    simp only [List.map_cons, List.sum_cons] at h
    have hw : (writeAt buf off t).length = buf.length :=
      length_writeAt buf off t (by omega)
    show (packInto (writeAt buf off t) (off + t.length) ts).length = _
    rw [ih (writeAt buf off t) (off + t.length) (by rw [hw]; omega), hw]

theorem readAt_packInto_below (ts : List (List Int)) (buf : List Int) (off' off len : Nat)
    (h1 : off + len ≤ off') (h2 : off' + (ts.map List.length).sum ≤ buf.length) :
    readAt (packInto buf off' ts) off len = readAt buf off len := by
  induction ts generalizing buf off' with
  | nil => rfl
  | cons t ts ih =>
    simp only [List.map_cons, List.sum_cons] at h2
    have hw : (writeAt buf off' t).length = buf.length :=
      length_writeAt buf off' t (by omega)
    show readAt (packInto (writeAt buf off' t) (off' + t.length) ts) off len = _
    rw [ih (writeAt buf off' t) (off' + t.length) (by omega) (by rw [hw]; omega)]
    exact readAt_writeAt_below buf off' off len t h1 (by omega)

theorem readAt_packInto_slice (r : RankState) (is : List Nat) (buf : List Int) (off : Nat)
    (htot : off + (is.map (fun i => (getTensor r i).length)).sum ≤ buf.length) :
    ∀ j ∈ is,
      readAt (packInto buf off (is.map (getTensor r)))
          (off + offsetIn (fun i => (getTensor r i).length) is j)
          (getTensor r j).length
        = getTensor r j := by
  induction is generalizing buf off with
  | nil =>
    intro j hj
    cases hj
  | cons i rest ih =>
    intro j hj
    simp only [List.map_cons, List.sum_cons] at htot
    have hw : (writeAt buf off (getTensor r i)).length = buf.length :=
      length_writeAt buf off _ (by omega)
    show readAt
        (packInto (writeAt buf off (getTensor r i)) (off + (getTensor r i).length)
          (rest.map (getTensor r)))
        (off + offsetIn (fun i => (getTensor r i).length) (i :: rest) j)
        (getTensor r j).length = getTensor r j
    by_cases hij : i = j
    · subst hij
      simp only [offsetIn, eq_self_iff_true, if_true, Nat.add_zero]
      have h2' : off + (getTensor r i).length + ((rest.map (getTensor r)).map List.length).sum
          ≤ (writeAt buf off (getTensor r i)).length := by
        rw [hw, List.map_map]
        simp only [Function.comp_def]
        omega
      rw [readAt_packInto_below (rest.map (getTensor r)) (writeAt buf off (getTensor r i))
        (off + (getTensor r i).length) off (getTensor r i).length (Nat.le_refl _) h2']
      exact readAt_writeAt_self buf off _ (by omega)
    · have hjr : j ∈ rest := by
        rcases List.mem_cons.mp hj with h | h
        · exact absurd h.symm hij
        · exact h
      simp only [offsetIn, if_neg hij]
      rw [← Nat.add_assoc]
      exact ih (writeAt buf off (getTensor r i)) (off + (getTensor r i).length)
        (by rw [hw]; omega) j hjr

/- ## Stage-out characterization -/

theorem stageOutGo_buffs (is : List Nat) (r : RankState) (off : Nat) :
    (stageOutGo r is off).fusedSendBuff = r.fusedSendBuff
  ∧ (stageOutGo r is off).fusedRecvBuff = r.fusedRecvBuff
  ∧ (stageOutGo r is off).fusedSendBuffHalf = r.fusedSendBuffHalf
  ∧ (stageOutGo r is off).fusedRecvBuffHalf = r.fusedRecvBuffHalf
  ∧ (stageOutGo r is off).tensors.length = r.tensors.length := by
  induction is generalizing r off with
  | nil => exact ⟨rfl, rfl, rfl, rfl, rfl⟩
  | cons i rest ih =>
    obtain ⟨h1, h2, h3, h4, h5⟩ :=
      ih (setTensor r i (readAt r.fusedRecvBuff off (getTensor r i).length))
        (off + (getTensor r i).length)
    exact ⟨h1, h2, h3, h4, h5.trans (length_tensors_setTensor r i _)⟩

theorem getTensor_stageOutGo (is : List Nat) (r : RankState) (off : Nat)
    (hnd : is.Nodup) (hrange : ∀ i ∈ is, i < r.tensors.length) (j : Nat) :
    getTensor (stageOutGo r is off) j
      = if j ∈ is
          then readAt r.fusedRecvBuff
                 (off + offsetIn (fun i => (getTensor r i).length) is j)
                 (getTensor r j).length
          else getTensor r j := by
  induction is generalizing r off with
  | nil => simp [stageOutGo]
  | cons i rest ih =>
    obtain ⟨hni, hndr⟩ := List.nodup_cons.mp hnd
    have hrange' : ∀ k ∈ rest,
        k < (setTensor r i (readAt r.fusedRecvBuff off (getTensor r i).length)).tensors.length := by
      intro k hk
      rw [length_tensors_setTensor]
      exact hrange k (by simp [hk])
    show getTensor
        (stageOutGo (setTensor r i (readAt r.fusedRecvBuff off (getTensor r i).length))
          rest (off + (getTensor r i).length)) j = _
    rw [ih _ _ hndr hrange']
    by_cases hj : j ∈ rest
    · have hji : j ≠ i := fun he => hni (he ▸ hj)
      have hlen : ∀ k ∈ rest,
          (getTensor (setTensor r i (readAt r.fusedRecvBuff off (getTensor r i).length)) k).length
            = (getTensor r k).length := by
        intro k hk
        have hki : i ≠ k := fun he => hni (he ▸ hk)
        rw [getTensor_setTensor_ne r i k _ hki]
      rw [if_pos hj, if_pos (List.mem_cons_of_mem i hj)]
      rw [getTensor_setTensor_ne r i j _ (Ne.symm hji)]
      have hoff : offsetIn
            (fun k => (getTensor (setTensor r i (readAt r.fusedRecvBuff off (getTensor r i).length)) k).length)
            rest j
          = offsetIn (fun k => (getTensor r k).length) rest j :=
        offsetIn_congr _ _ rest j hlen
      rw [hoff]
      simp only [offsetIn]
      rw [if_neg (Ne.symm hji), ← Nat.add_assoc]
      rfl
    · by_cases hji : j = i
      · subst hji
        rw [if_neg hj, if_pos (by simp)]
        rw [getTensor_setTensor_self r j _ (hrange j (by simp))]
        simp [offsetIn]
      · rw [if_neg hj, if_neg (by simp [hji, hj])]
        rw [getTensor_setTensor_ne r i j _ (Ne.symm hji)]

/- ## The packed reduction region -/

/-- The reduced packed region: the elementwise sum, across ranks, of each
rank's packed send staging buffer restricted to the batch's total element
count (spec §4.4 step 2). -/
def packedSum (rs : List RankState) (is : List Nat) : List Int :=
  sumAcross (rs.map (fun r =>
    (packInto r.fusedSendBuff 0 (is.map (getTensor r))).take (fusedTotal r is)))

/-- Unfolding of the fused pipeline to a per-rank composition. -/
theorem execFusedSynch_eq (rs : List RankState) (is : List Nat) :
    execFusedSynch rs is
      = rs.map (fun r => stageOutGo (reduceRank (packedSum rs is) (stageInRank r is)) is 0) := by
  simp only [execFusedSynch, List.map_map]
  rfl

theorem fusedTotal_eq_sum (r : RankState) (is : List Nat) (sh : Nat → Nat)
    (h : ∀ i ∈ is, (getTensor r i).length = sh i) :
    fusedTotal r is = (is.map sh).sum := by
  unfold fusedTotal
  congr 1
  exact List.map_congr_left h

theorem length_packedSum (rs : List RankState) (is : List Nat) (cap : Nat) (sh : Nat → Nat)
    (hne : rs ≠ [])
    (hsh : ∀ r ∈ rs, ∀ i ∈ is, (getTensor r i).length = sh i)
    (hcapS : ∀ r ∈ rs, r.fusedSendBuff.length = cap)
    (htot : (is.map sh).sum ≤ cap) :
    (packedSum rs is).length = (is.map sh).sum := by
  unfold packedSum
  refine length_sumAcross _ _ (fun h => hne (List.map_eq_nil_iff.mp h)) ?_
  intro v hv
  obtain ⟨r', hr', hre⟩ := List.mem_map.mp hv
  rw [← hre, List.length_take, fusedTotal_eq_sum r' is sh (hsh r' hr')]
  rw [length_packInto _ _ _ ?hbnd]
  case hbnd =>
    rw [List.map_map]
    simp only [Function.comp_def]
    rw [List.map_congr_left (hsh r' hr'), hcapS r' hr']
    omega
  rw [hcapS r' hr']
  omega

theorem readAt_packedSum (rs : List RankState) (is : List Nat) (cap : Nat) (sh : Nat → Nat)
    (hsh : ∀ r ∈ rs, ∀ i ∈ is, (getTensor r i).length = sh i)
    (hcapS : ∀ r ∈ rs, r.fusedSendBuff.length = cap)
    (htot : (is.map sh).sum ≤ cap)
    (j : Nat) (hj : j ∈ is) :
    readAt (packedSum rs is) (offsetIn sh is j) (sh j)
      = sumAcross (rs.map (fun r' => getTensor r' j)) := by
  rw [packedSum, readAt_sumAcross, List.map_map]
  congr 1
  refine List.map_congr_left ?_
  intro r' hr'
  rw [Function.comp_apply]
  have hoffle : offsetIn sh is j + sh j ≤ (is.map sh).sum := offsetIn_add_le sh is j hj
  rw [fusedTotal_eq_sum r' is sh (hsh r' hr')]
  rw [readAt_take _ _ _ _ hoffle]
  have hoff : offsetIn sh is j = offsetIn (fun i => (getTensor r' i).length) is j :=
    (offsetIn_congr _ _ is j (fun k hk => hsh r' hr' k hk)).symm
  rw [hoff, ← (hsh r' hr' j hj)]
  have hslice := readAt_packInto_slice r' is r'.fusedSendBuff 0 ?hbnd j hj
  case hbnd =>
    rw [List.map_congr_left (hsh r' hr'), hcapS r' hr']
    omega
  rw [← Nat.zero_add (offsetIn (fun i => (getTensor r' i).length) is j)]
  exact hslice

/-- Per-rank characterization of the tensors after a fused sync: every
batched slot holds the cross-rank elementwise sum; every other slot is
untouched. -/
theorem getTensor_fused (rs : List RankState) (is : List Nat) (cap : Nat) (sh : Nat → Nat)
    (hnd : is.Nodup)
    (hsh : ∀ r ∈ rs, ∀ i ∈ is, (getTensor r i).length = sh i)
    (hcapS : ∀ r ∈ rs, r.fusedSendBuff.length = cap)
    (htot : (is.map sh).sum ≤ cap)
    (r : RankState) (hr : r ∈ rs)
    (hrange : ∀ i ∈ is, i < r.tensors.length)
    (j : Nat) :
    getTensor (stageOutGo (reduceRank (packedSum rs is) (stageInRank r is)) is 0) j
      = if j ∈ is then sumAcross (rs.map (fun r' => getTensor r' j)) else getTensor r j := by
  have hso := getTensor_stageOutGo is (reduceRank (packedSum rs is) (stageInRank r is)) 0
    hnd hrange j
  rw [hso]
  by_cases hj : j ∈ is
  · rw [if_pos hj, if_pos hj]
    show readAt (writeAt r.fusedRecvBuff 0 (packedSum rs is)) _ _ = _
    have hwz : writeAt r.fusedRecvBuff 0 (packedSum rs is)
        = packedSum rs is ++ r.fusedRecvBuff.drop (packedSum rs is).length := by
      simp [writeAt]
    have hPlen : (packedSum rs is).length = (is.map sh).sum :=
      length_packedSum rs is cap sh (List.ne_nil_of_mem hr) hsh hcapS htot
    have hoff : offsetIn
          (fun i => (getTensor (reduceRank (packedSum rs is) (stageInRank r is)) i).length) is j
        = offsetIn sh is j :=
      offsetIn_congr _ _ is j (fun k hk => hsh r hr k hk)
    have hlenj : (getTensor (reduceRank (packedSum rs is) (stageInRank r is)) j).length = sh j :=
      hsh r hr j hj
    rw [hwz, hoff, hlenj, Nat.zero_add]
    rw [readAt_append_left _ _ _ _ (by rw [hPlen]; exact offsetIn_add_le sh is j hj)]
    exact readAt_packedSum rs is cap sh hsh hcapS htot j hj
  · rw [if_neg hj, if_neg hj]
    rfl

/- ## Claims about the fused path -/

theorem tensors_ext (t1 t2 : List (List Int)) (hlen : t1.length = t2.length)
    (h : ∀ j, t1.getD j [] = t2.getD j []) : t1 = t2 := by
  refine List.ext_getElem hlen ?_
  intro j h1 h2
  have hj := h j
  rw [List.getD_eq_getElem?_getD, List.getD_eq_getElem?_getD,
    List.getElem?_eq_getElem h1, List.getElem?_eq_getElem h2] at hj
  simpa using hj

/-- Claim C2 --- A fused synchronization of a batch of tensors followed by
wait leaves every tensor on every rank with the same contents as the same
batch synchronized by sequential single-tensor syncs, each followed by
wait (exact-integer model of "up to floating-point rounding"). -/
theorem fusedSynch_equiv_sequential (g : GroupState) (is : List Nat) (sh : Nat → Nat)
    (hp : g.pending = [])
    (hnd : is.Nodup)
    (hrange : ∀ r ∈ g.ranks, ∀ i ∈ is, i < r.tensors.length)
    (hsh : ∀ r ∈ g.ranks, ∀ i ∈ is, (getTensor r i).length = sh i)
    (hcapS : ∀ r ∈ g.ranks, r.fusedSendBuff.length = g.maxSize)
    (hcapR : ∀ r ∈ g.ranks, r.fusedRecvBuff.length = g.maxSize)
    (htot : (is.map sh).sum ≤ g.maxSize) :
    (wait (fusedSynch g is)).ranks.map RankState.tensors
      = (is.foldl (fun g' i => wait (synch g' i)) g).ranks.map RankState.tensors := by
  have h1 : (wait (fusedSynch g is)).ranks = execFusedSynch g.ranks is := by
    simp [wait, fusedSynch, hp, execOp]
  rw [h1, foldl_wait_synch g is hp]
  show _ = (is.foldl execSynch g.ranks).map RankState.tensors
  rw [foldl_execSynch_eq_setMany g.ranks is hnd hrange]
  rw [execFusedSynch_eq, List.map_map, List.map_map]
  refine List.map_congr_left ?_
  intro r hr
  simp only [Function.comp_apply]
  refine tensors_ext _ _ ?_ ?_
  · have h5 := (stageOutGo_buffs is (reduceRank (packedSum g.ranks is) (stageInRank r is)) 0).2.2.2.2
    rw [h5, length_tensors_setMany]
    rfl
  · intro j
    have hF := getTensor_fused g.ranks is g.maxSize sh hnd hsh hcapS htot r hr (hrange r hr) j
    have hS := getTensor_setMany (fun k => sumAcross (g.ranks.map (fun r => getTensor r k)))
      is r hnd (hrange r hr) j
    show getTensor (stageOutGo (reduceRank (packedSum g.ranks is) (stageInRank r is)) is 0) j
      = getTensor (setMany (fun k => sumAcross (g.ranks.map (fun r => getTensor r k))) is r) j
    rw [hF, hS]

/-- Concrete 2-rank group used by the C2 witness. -/
def c2Group : GroupState :=
  { maxSize := 3
    ranks :=
      [ { tensors := [[1, 2], [10]], fusedSendBuff := [0, 0, 0], fusedRecvBuff := [0, 0, 0],
          fusedSendBuffHalf := [], fusedRecvBuffHalf := [] }
      , { tensors := [[3, 4], [20]], fusedSendBuff := [0, 0, 0], fusedRecvBuff := [0, 0, 0],
          fusedSendBuffHalf := [], fusedRecvBuffHalf := [] } ]
    pending := []
    errored := false }

/-- Witness for C2 at a concrete 2-rank, 2-tensor batch filling capacity. -/
theorem fusedSynch_equiv_sequential_witness :
    (wait (fusedSynch c2Group [0, 1])).ranks.map RankState.tensors
      = ([0, 1].foldl (fun g' i => wait (synch g' i)) c2Group).ranks.map RankState.tensors :=
  fusedSynch_equiv_sequential c2Group [0, 1] (fun i => if i = 0 then 2 else 1) rfl
    (by decide) (by decide) (by decide) (by decide) (by decide) (by decide)

/-- Claim C3 --- In a fused synchronization, each tensor is copied into the
send staging buffer at element offset equal to the running sum of the
element counts of the preceding tensors, consecutively in sequence order;
after the reduction, each tensor's memory holds the packed receive buffer's
contents read back at the same offsets in the same order. -/
theorem fused_offsets (g : GroupState) (is : List Nat) (sh : Nat → Nat)
    (hp : g.pending = [])
    (hnd : is.Nodup)
    (hrange : ∀ r ∈ g.ranks, ∀ i ∈ is, i < r.tensors.length)
    (hsh : ∀ r ∈ g.ranks, ∀ i ∈ is, (getTensor r i).length = sh i)
    (hcapS : ∀ r ∈ g.ranks, r.fusedSendBuff.length = g.maxSize)
    (hcapR : ∀ r ∈ g.ranks, r.fusedRecvBuff.length = g.maxSize)
    (htot : (is.map sh).sum ≤ g.maxSize) :
    (wait (fusedSynch g is)).ranks.map
        (fun r' => is.map (fun j => readAt r'.fusedSendBuff (offsetIn sh is j) (sh j)))
      = g.ranks.map (fun r => is.map (fun j => getTensor r j))
  ∧ (wait (fusedSynch g is)).ranks.map (fun r' => is.map (fun j => getTensor r' j))
      = (wait (fusedSynch g is)).ranks.map
          (fun r' => is.map (fun j => readAt r'.fusedRecvBuff (offsetIn sh is j) (sh j))) := by
  have h1 : (wait (fusedSynch g is)).ranks = execFusedSynch g.ranks is := by
    simp [wait, fusedSynch, hp, execOp]
  rw [h1, execFusedSynch_eq, List.map_map, List.map_map, List.map_map]
  constructor
  · refine List.map_congr_left ?_
    intro r hr
    simp only [Function.comp_apply]
    have hsb : (stageOutGo (reduceRank (packedSum g.ranks is) (stageInRank r is)) is 0).fusedSendBuff
        = packInto r.fusedSendBuff 0 (is.map (getTensor r)) :=
      (stageOutGo_buffs is _ 0).1
    rw [hsb]
    refine List.map_congr_left ?_
    intro j hj
    have hbnd : 0 + (is.map (fun i => (getTensor r i).length)).sum ≤ r.fusedSendBuff.length := by
      rw [List.map_congr_left (hsh r hr), hcapS r hr]
      omega
    have hs := readAt_packInto_slice r is r.fusedSendBuff 0 hbnd j hj
    rw [Nat.zero_add] at hs
    rw [offsetIn_congr sh (fun i => (getTensor r i).length) is j
      (fun k hk => (hsh r hr k hk).symm)]
    rw [show sh j = (getTensor r j).length from (hsh r hr j hj).symm]
    exact hs
  · refine List.map_congr_left ?_
    intro r hr
    simp only [Function.comp_apply]
    refine List.map_congr_left ?_
    intro j hj
    have hso := getTensor_stageOutGo is (reduceRank (packedSum g.ranks is) (stageInRank r is)) 0
      hnd (hrange r hr) j
    rw [hso, if_pos hj]
    have hrb : (stageOutGo (reduceRank (packedSum g.ranks is) (stageInRank r is)) is 0).fusedRecvBuff
        = (reduceRank (packedSum g.ranks is) (stageInRank r is)).fusedRecvBuff :=
      (stageOutGo_buffs is _ 0).2.1
    rw [hrb]
    rw [offsetIn_congr
      (fun i => (getTensor (reduceRank (packedSum g.ranks is) (stageInRank r is)) i).length)
      sh is j (fun k hk => hsh r hr k hk)]
    rw [show (getTensor (reduceRank (packedSum g.ranks is) (stageInRank r is)) j).length = sh j
      from hsh r hr j hj]
    rw [Nat.zero_add]

/-- Concrete 2-rank group used by the C3 witness. -/
def c3Group : GroupState :=
  { maxSize := 4
    ranks :=
      [ { tensors := [[1, 2], [10]], fusedSendBuff := [0, 0, 0, 0], fusedRecvBuff := [0, 0, 0, 0],
          fusedSendBuffHalf := [], fusedRecvBuffHalf := [] }
      , { tensors := [[3, 4], [20]], fusedSendBuff := [0, 0, 0, 0], fusedRecvBuff := [0, 0, 0, 0],
          fusedSendBuffHalf := [], fusedRecvBuffHalf := [] } ]
    pending := []
    errored := false }

/-- Witness for C3 at a concrete 2-rank, 2-tensor batch. -/
theorem fused_offsets_witness :
    ((wait (fusedSynch c3Group [0, 1])).ranks.map
        (fun r' => [0, 1].map (fun j =>
          readAt r'.fusedSendBuff (offsetIn (fun i => if i = 0 then 2 else 1) [0, 1] j)
            (if j = 0 then 2 else 1)))
      = c3Group.ranks.map (fun r => [0, 1].map (fun j => getTensor r j)))
  ∧ ((wait (fusedSynch c3Group [0, 1])).ranks.map
        (fun r' => [0, 1].map (fun j => getTensor r' j))
      = (wait (fusedSynch c3Group [0, 1])).ranks.map
          (fun r' => [0, 1].map (fun j =>
            readAt r'.fusedRecvBuff (offsetIn (fun i => if i = 0 then 2 else 1) [0, 1] j)
              (if j = 0 then 2 else 1)))) :=
  fused_offsets c3Group [0, 1] (fun i => if i = 0 then 2 else 1) rfl
    (by decide) (by decide) (by decide) (by decide) (by decide) (by decide)

/-- Claim C5 --- The fused synchronization performs no runtime capacity
check: it never raises an error, its behaviour is identical under any
configured capacity, and (from a quiescent state) it simply executes the
fused stage-in / reduce / stage-out pipeline. -/
theorem fusedSynch_unchecked (g : GroupState) (is : List Nat) (c : Nat)
    (hp : g.pending = []) :
    (wait (fusedSynch g is)).errored = g.errored
  ∧ (wait (fusedSynch g is)).ranks = (wait (fusedSynch { g with maxSize := c } is)).ranks
  ∧ (wait (fusedSynch g is)).ranks = execFusedSynch g.ranks is := by
  refine ⟨rfl, rfl, ?_⟩
  simp [wait, fusedSynch, hp, execOp]

/-- Concrete group used by the C5 witness. -/
def c5Group : GroupState :=
  { maxSize := 1
    ranks :=
      [ { tensors := [[5]], fusedSendBuff := [0], fusedRecvBuff := [0],
          fusedSendBuffHalf := [], fusedRecvBuffHalf := [] } ]
    pending := []
    errored := false }

/-- Witness for C5: the capacity field plays no role and no error is set. -/
theorem fusedSynch_unchecked_witness :
    (wait (fusedSynch c5Group [0])).errored = c5Group.errored
  ∧ (wait (fusedSynch c5Group [0])).ranks
      = (wait (fusedSynch { c5Group with maxSize := 7 } [0])).ranks
  ∧ (wait (fusedSynch c5Group [0])).ranks = execFusedSynch c5Group.ranks [0] :=
  fusedSynch_unchecked c5Group [0] 7 rfl

/- ## Claim C8: the single-tensor path and the staging buffers -/

theorem execSynch_tensors_map (rs : List RankState) (i : Nat) :
    (execSynch rs i).map RankState.tensors
      = (rs.map RankState.tensors).map
          (fun ts => ts.set i
            (sumAcross ((rs.map RankState.tensors).map (fun ts => ts.getD i [])))) := by
  simp only [execSynch, List.map_map]
  rfl

/-- Claim C8 --- The full-precision single-tensor sync is in place: it
neither writes any of the four fused staging buffers (their contents are
unchanged) nor reads them (the resulting tensors depend only on the
pre-call tensors, so two states agreeing on tensors but with arbitrary
staging-buffer contents produce identical tensors). -/
theorem synch_in_place_frame (g g' : GroupState) (i : Nat)
    (hp : g.pending = []) (hp' : g'.pending = [])
    (ht : g.ranks.map RankState.tensors = g'.ranks.map RankState.tensors) :
    (wait (synch g i)).ranks.map RankState.fusedSendBuff = g.ranks.map RankState.fusedSendBuff
  ∧ (wait (synch g i)).ranks.map RankState.fusedRecvBuff = g.ranks.map RankState.fusedRecvBuff
  ∧ (wait (synch g i)).ranks.map RankState.fusedSendBuffHalf
      = g.ranks.map RankState.fusedSendBuffHalf
  ∧ (wait (synch g i)).ranks.map RankState.fusedRecvBuffHalf
      = g.ranks.map RankState.fusedRecvBuffHalf
  ∧ (wait (synch g i)).ranks.map RankState.tensors
      = (wait (synch g' i)).ranks.map RankState.tensors := by
  have h1 : (wait (synch g i)).ranks = execSynch g.ranks i := by
    simp [wait, synch, hp, execOp]
  have h1' : (wait (synch g' i)).ranks = execSynch g'.ranks i := by
    simp [wait, synch, hp', execOp]
  have hbuf : ∀ (f : RankState → List Int), (∀ r d, f (setTensor r i d) = f r) →
      (execSynch g.ranks i).map f = g.ranks.map f := by
    intro f hf
    show (g.ranks.map _).map f = _
    rw [List.map_map]
    refine List.map_congr_left ?_
    intro r hr
    exact hf r _
  refine ⟨?_, ?_, ?_, ?_, ?_⟩
  · rw [h1]
    exact hbuf RankState.fusedSendBuff (fun r d => rfl)
  · rw [h1]
    exact hbuf RankState.fusedRecvBuff (fun r d => rfl)
  · rw [h1]
    exact hbuf RankState.fusedSendBuffHalf (fun r d => rfl)
  · rw [h1]
    exact hbuf RankState.fusedRecvBuffHalf (fun r d => rfl)
  · rw [h1, h1', execSynch_tensors_map, execSynch_tensors_map, ht]

/-- Concrete groups used by the C8 witness: identical tensors, different
staging-buffer contents. -/
def c8Group : GroupState :=
  { maxSize := 2
    ranks :=
      [ { tensors := [[1, 2]], fusedSendBuff := [7, 7], fusedRecvBuff := [8, 8],
          fusedSendBuffHalf := [9], fusedRecvBuffHalf := [9] } ]
    pending := []
    errored := false }

def c8Group' : GroupState :=
  { maxSize := 2
    ranks :=
      [ { tensors := [[1, 2]], fusedSendBuff := [0, 0], fusedRecvBuff := [0, 0],
          fusedSendBuffHalf := [], fusedRecvBuffHalf := [] } ]
    pending := []
    errored := false }

/-- Witness for C8 at concrete states. -/
theorem synch_in_place_frame_witness :
    (wait (synch c8Group 0)).ranks.map RankState.fusedSendBuff
      = c8Group.ranks.map RankState.fusedSendBuff
  ∧ (wait (synch c8Group 0)).ranks.map RankState.fusedRecvBuff
      = c8Group.ranks.map RankState.fusedRecvBuff
  ∧ (wait (synch c8Group 0)).ranks.map RankState.fusedSendBuffHalf
      = c8Group.ranks.map RankState.fusedSendBuffHalf
  ∧ (wait (synch c8Group 0)).ranks.map RankState.fusedRecvBuffHalf
      = c8Group.ranks.map RankState.fusedRecvBuffHalf
  ∧ (wait (synch c8Group 0)).ranks.map RankState.tensors
      = (wait (synch c8Group' 0)).ranks.map RankState.tensors :=
  synch_in_place_frame c8Group c8Group' 0 rfl rfl (by decide)

/- ## Error-check macros (header lines 38-54) -/

/-- Diagnostic printed by the check macros before terminating: the failing
call site's file and line, plus the detail string printed inside quotes. -/
structure Diag where
  file : String
  line : Nat
  detail : String
deriving DecidableEq

/-- Outcome of a checked substrate call: either the call succeeded and
execution continues, or the process terminates (exit(EXIT_FAILURE)) after
printing a diagnostic.  There is no recoverable-error constructor. -/
inductive CheckOutcome where
  | ok
  | exitFailure (d : Diag)
deriving DecidableEq

def MPI_SUCCESS : Int := 0

/-- MPICHECK (header lines 38-45): if the MPI return code `e` is not
MPI_SUCCESS, print "Failed: MPI error FILE:LINE 'e'" — the numeric code,
via the %d format — and exit(EXIT_FAILURE); otherwise continue. -/
def MPICHECK (file : String) (line : Nat) (e : Int) : CheckOutcome :=
  if e ≠ MPI_SUCCESS then CheckOutcome.exitFailure ⟨file, line, toString e⟩
  else CheckOutcome.ok

def ncclSuccess : Nat := 0

/-- NCCLCHECK (header lines 47-54): if the NCCL result `r` is not
ncclSuccess, print "Failed, NCCL error FILE:LINE 'ncclGetErrorString(r)'"
— the substrate's error string, via the %s format — and
exit(EXIT_FAILURE); otherwise continue.  ncclGetErrorString is an external
library function, taken here as the parameter `errStr`. -/
def NCCLCHECK (errStr : Nat → String) (file : String) (line : Nat) (r : Nat) : CheckOutcome :=
  if r ≠ ncclSuccess then CheckOutcome.exitFailure ⟨file, line, errStr r⟩
  else CheckOutcome.ok

/-- Specification-side predicate written from the claim's words: the
diagnostic names the numeric error code (the code's decimal rendering
stands in the diagnostic's detail position). -/
def namesNumericCode (d : Diag) (code : Nat) : Prop :=
  d.detail = toString code

/-- Counterexample to C4 as stated: an NCCL failure with result code 1 —
whose real substrate error string is "unhandled cuda error" — terminates
with a diagnostic carrying the error string, which does not name the
numeric code 1. -/
theorem ncclcheck_diag_not_numeric :
    NCCLCHECK (fun _ => "unhandled cuda error") "communicator.h" 49 1
      = CheckOutcome.exitFailure ⟨"communicator.h", 49, "unhandled cuda error"⟩
  ∧ ¬ namesNumericCode ⟨"communicator.h", 49, "unhandled cuda error"⟩ 1 := by
  constructor
  · rfl
  · intro h
    have hne : ("unhandled cuda error" : String) ≠ toString (1 : Nat) := by decide
    exact hne h

/-- Claim C4 (amended) --- Every substrate error detected by the check
macros terminates the process, with a diagnostic naming the failing call
site (file and line) plus an error indicator, and no macro ever returns a
recoverable error value (success is the only continuing outcome): the MPI
macro reports the numeric code, while the NCCL macro reports the
substrate's error string rather than the numeric code. -/
theorem checks_fatal (errStr : Nat → String) (f : String) (l : Nat) (e : Int) (r : Nat)
    (he : e ≠ MPI_SUCCESS) (hr : r ≠ ncclSuccess) :
    MPICHECK f l e = CheckOutcome.exitFailure ⟨f, l, toString e⟩
  ∧ NCCLCHECK errStr f l r = CheckOutcome.exitFailure ⟨f, l, errStr r⟩
  ∧ MPICHECK f l MPI_SUCCESS = CheckOutcome.ok
  ∧ NCCLCHECK errStr f l ncclSuccess = CheckOutcome.ok := by
  refine ⟨?_, ?_, ?_, ?_⟩
  · simp [MPICHECK, he]
  · simp [NCCLCHECK, hr]
  · simp [MPICHECK]
  · simp [NCCLCHECK]

/-- Witness for the amended C4 at concrete error codes. -/
theorem checks_fatal_witness :
    MPICHECK "communicator.h" 42 3
      = CheckOutcome.exitFailure ⟨"communicator.h", 42, toString (3 : Int)⟩
  ∧ NCCLCHECK (fun _ => "invalid argument") "communicator.h" 42 4
      = CheckOutcome.exitFailure ⟨"communicator.h", 42, "invalid argument"⟩
  ∧ MPICHECK "communicator.h" 42 MPI_SUCCESS = CheckOutcome.ok
  ∧ NCCLCHECK (fun _ => "invalid argument") "communicator.h" 42 ncclSuccess
      = CheckOutcome.ok :=
  checks_fatal (fun _ => "invalid argument") "communicator.h" 42 3 4 (by decide) (by decide)

/- ## Construction model (header lines 56-61, 63-75, 84-85) -/

/-- The opaque fixed-size rendezvous identifier (ncclUniqueId), modelled as
an opaque byte list. -/
abbrev NcclUniqueId := List Nat

/-- NcclIdHolder (header lines 56-61): a class holding an ncclUniqueId by
value. -/
structure NcclIdHolder where
  id : NcclUniqueId
deriving DecidableEq

/-- Construction-time state of `class Communicator`: its rank metadata,
mode flag and capacity fields (header lines 65-68, 73) and its own
by-value `ncclUniqueId id` member (header line 75). -/
structure Communicator where
  MPIRankInGlobal : Nat
  totalMPIRanksInGlobal : Nat
  MPIRankInLocal : Nat
  UseMPI : Bool
  maxSize : Nat
  id : NcclUniqueId
deriving DecidableEq

/-- Ambient local device enumeration visible to a single process (spec
§4.1(b): ranks derived "implicitly from local device enumeration"). -/
structure LocalDevices where
  count : Nat
  thisDevice : Nat
deriving DecidableEq

/-- Modelled from the spec: the legacy constructor `Communicator(int limit)`
(declared at header line 84; its body, in communicator.cc, is not under
src/).  Spec §6: "input — a maximum byte capacity only; ranks are derived
from local device enumeration"; no external process-group mechanism is
consulted, so no rendezvous token is taken and the stored identifier is
generated locally (modelled as the default empty identifier). -/
def Communicator.mkLegacy (limit : Nat) (devs : LocalDevices) : Communicator :=
  { MPIRankInGlobal := devs.thisDevice
    totalMPIRanksInGlobal := devs.count
    MPIRankInLocal := devs.thisDevice
    UseMPI := false
    maxSize := limit
    id := [] }

/-- Modelled from the spec: spec §6 says token mode sizes buffers from "a
configurable maximum byte capacity"; the configured value is immaterial to
every claim, fixed here as an arbitrary constant. -/
def configuredMaxBytes : Nat := 4

/-- Modelled from the spec: the token-mode constructor
`Communicator(int gpu_num, int gpu_per_node, const NcclIdHolder &holder, int size)`
(declared at header line 85; body not under src/).  Spec §6: inputs are
the device index on this host, the number of devices on this host, a
RendezvousToken and the total group size; the holder is passed by const
reference and the communicator keeps its own by-value copy of the
identifier (header line 75). -/
def Communicator.mkToken (gpu_num gpu_per_node : Nat) (holder : NcclIdHolder)
    (size : Nat) : Communicator :=
  { MPIRankInGlobal := gpu_num
    totalMPIRanksInGlobal := size
    MPIRankInLocal := gpu_num % gpu_per_node
    UseMPI := true
    maxSize := configuredMaxBytes
    id := holder.id }

/-- Claim C9 --- The legacy constructor takes only a maximum byte capacity;
global rank, group size and local rank all come from the local device
enumeration, with the external process-group mechanism disabled and no
token input. -/
theorem legacy_ctor_local_enum (limit : Nat) (devs : LocalDevices) :
    (Communicator.mkLegacy limit devs).maxSize = limit
  ∧ (Communicator.mkLegacy limit devs).MPIRankInGlobal = devs.thisDevice
  ∧ (Communicator.mkLegacy limit devs).totalMPIRanksInGlobal = devs.count
  ∧ (Communicator.mkLegacy limit devs).MPIRankInLocal = devs.thisDevice
  ∧ (Communicator.mkLegacy limit devs).UseMPI = false :=
  ⟨rfl, rfl, rfl, rfl, rfl⟩

/-- Claim C10 --- The token-mode constructor takes the holder by const
reference and stores its own by-value copy of the rendezvous identifier:
the constructed state's `id` equals the holder's, and construction depends
on nothing of the holder but that value — two holders with equal
identifiers yield identical Communicators.  Every operation is a function
of the constructed state alone, so destroying the NcclIdHolder after
construction cannot affect any subsequent operation. -/
theorem token_ctor_copies_id (gpu_num gpu_per_node size : Nat)
    (h h' : NcclIdHolder) (heq : h.id = h'.id) :
    (Communicator.mkToken gpu_num gpu_per_node h size).id = h.id
  ∧ Communicator.mkToken gpu_num gpu_per_node h size
      = Communicator.mkToken gpu_num gpu_per_node h' size := by
  constructor
  · rfl
  · simp [Communicator.mkToken, heq]

/-- Witness for C10 at a concrete identifier. -/
theorem token_ctor_copies_id_witness :
    (Communicator.mkToken 2 4 ⟨[1, 2, 3]⟩ 8).id = [1, 2, 3]
  ∧ Communicator.mkToken 2 4 ⟨[1, 2, 3]⟩ 8 = Communicator.mkToken 2 4 ⟨[1, 2, 3]⟩ 8 :=
  token_ctor_copies_id 2 4 8 ⟨[1, 2, 3]⟩ ⟨[1, 2, 3]⟩ rfl

/- ## Claim C7: completion-marker ordering (trace model) -/

/-- The three device execution queues (header lines 76-80: stream s for
the reduction, streams c1 and c2 for data copies to and from the staging
buffers). -/
inductive Queue where
  | reduceQ
  | stageInQ
  | stageOutQ
deriving DecidableEq

/-- Primitive device commands, tagged with the queue they are enqueued on;
the completion marker is the single cudaEvent_t member (header line 82),
destroyed only at Communicator teardown (header line 86). -/
inductive DevCmd where
  | copyIn (q : Queue)
  | recordEvent (q : Queue)
  | waitEvent (q : Queue)
  | reduceDispatch (q : Queue)
  | copyOut (q : Queue)
  | destroyEvent
deriving DecidableEq

/-- Modelled from the spec: device commands emitted by one synchronization
call.  §4.3: a single-tensor sync dispatches the reduction on the reduce
queue, and §3 (CompletionMarker) requires the marker to be recorded after
every reduction dispatch.  §4.4 steps 1-3: a fused sync stages in on the
stage-in queue, records the marker there, makes the reduce queue wait on
it, dispatches the reduction, records the marker on the reduce queue, and
makes the stage-out queue wait on it before the copy-back. -/
def callTrace : Op → List DevCmd
  | Op.synch _ =>
      [DevCmd.reduceDispatch Queue.reduceQ, DevCmd.recordEvent Queue.reduceQ]
  | Op.fusedSynch _ =>
      [DevCmd.copyIn Queue.stageInQ, DevCmd.recordEvent Queue.stageInQ,
       DevCmd.waitEvent Queue.reduceQ, DevCmd.reduceDispatch Queue.reduceQ,
       DevCmd.recordEvent Queue.reduceQ, DevCmd.waitEvent Queue.stageOutQ,
       DevCmd.copyOut Queue.stageOutQ]

/-- Modelled from the spec: the concatenated command trace of a call
sequence (ranks issue calls one at a time, §5). -/
def progTrace (ops : List Op) : List DevCmd :=
  (ops.map callTrace).flatten

/-- A trace orders every copy-back after its reduction: before each
copy-out there are, in order, a reduction dispatch on the reduce queue, a
marker record on the reduce queue after the dispatch, and a marker wait on
the copy-out's own queue after the record. -/
def orderedTrace (t : List DevCmd) : Prop :=
  ∀ (j : Nat) (q : Queue), t[j]? = some (DevCmd.copyOut q) →
    ∃ (i₁ i₂ i₃ : Nat), i₁ < i₂ ∧ i₂ < i₃ ∧ i₃ < j
      ∧ t[i₁]? = some (DevCmd.reduceDispatch Queue.reduceQ)
      ∧ t[i₂]? = some (DevCmd.recordEvent Queue.reduceQ)
      ∧ t[i₃]? = some (DevCmd.waitEvent q)

theorem orderedTrace_append (s t : List DevCmd)
    (hs : orderedTrace s) (ht : orderedTrace t) : orderedTrace (s ++ t) := by
  unfold orderedTrace
  intro j q hj
  by_cases hjs : j < s.length
  · rw [List.getElem?_append_left hjs] at hj
    obtain ⟨i₁, i₂, i₃, h12, h23, h3j, e1, e2, e3⟩ := hs j q hj
    refine ⟨i₁, i₂, i₃, h12, h23, h3j, ?_, ?_, ?_⟩
    · rw [List.getElem?_append_left (by omega)]
      exact e1
    · rw [List.getElem?_append_left (by omega)]
      exact e2
    · rw [List.getElem?_append_left (by omega)]
      exact e3
  · push_neg at hjs
    rw [List.getElem?_append_right hjs] at hj
    obtain ⟨i₁, i₂, i₃, h12, h23, h3j, e1, e2, e3⟩ := ht (j - s.length) q hj
    refine ⟨s.length + i₁, s.length + i₂, s.length + i₃,
      by omega, by omega, by omega, ?_, ?_, ?_⟩
    · rw [List.getElem?_append_right (Nat.le_add_right _ _), Nat.add_sub_cancel_left]
      exact e1
    · rw [List.getElem?_append_right (Nat.le_add_right _ _), Nat.add_sub_cancel_left]
      exact e2
    · rw [List.getElem?_append_right (Nat.le_add_right _ _), Nat.add_sub_cancel_left]
      exact e3

theorem orderedTrace_callTrace (op : Op) : orderedTrace (callTrace op) := by
  unfold orderedTrace
  cases op with
  | synch i =>
    intro j q hj
    exfalso
    rcases j with _ | _ | j <;> simp [callTrace] at hj
  | fusedSynch is =>
    intro j q hj
    match j with
    | 0 | 1 | 2 | 3 | 4 | 5 =>
      exfalso
      simp [callTrace] at hj
    | 6 =>
      have hq : Queue.stageOutQ = q := by
        simpa [callTrace] using hj
      subst hq
      exact ⟨3, 4, 5, by omega, by omega, by omega, rfl, rfl, rfl⟩
    | j + 7 =>
      exfalso
      simp [callTrace] at hj

theorem destroyEvent_not_mem_callTrace (op : Op) :
    DevCmd.destroyEvent ∉ callTrace op := by
  cases op <;> simp [callTrace]

theorem progTrace_cons (op : Op) (ops : List Op) :
    progTrace (op :: ops) = callTrace op ++ progTrace ops := by
  simp [progTrace]

theorem orderedTrace_progTrace (ops : List Op) : orderedTrace (progTrace ops) := by
  induction ops with
  | nil =>
    unfold orderedTrace
    intro j q hj
    simp [progTrace] at hj
  | cons op rest ih =>
    rw [progTrace_cons]
    exact orderedTrace_append _ _ (orderedTrace_callTrace op) ih

theorem destroyEvent_not_mem_progTrace (ops : List Op) :
    DevCmd.destroyEvent ∉ progTrace ops := by
  induction ops with
  | nil => simp [progTrace]
  | cons op rest ih =>
    rw [progTrace_cons]
    intro h
    rcases List.mem_append.mp h with h | h
    · exact destroyEvent_not_mem_callTrace op h
    · exact ih h

/-- Claim C7 --- In every synchronization call, the completion marker is
recorded after the reduction dispatch and waited on before the
corresponding copy-back; the single marker is re-recorded by every call,
it is never destroyed before teardown, and even the teardown-extended
trace keeps every copy-back ordered after its reduction. -/
theorem event_marker_ordering (ops : List Op) :
    orderedTrace (progTrace ops)
  ∧ DevCmd.destroyEvent ∉ progTrace ops
  ∧ orderedTrace (progTrace ops ++ [DevCmd.destroyEvent])
  ∧ ∀ op : Op, DevCmd.recordEvent Queue.reduceQ ∈ callTrace op := by
  refine ⟨orderedTrace_progTrace ops, destroyEvent_not_mem_progTrace ops, ?_, ?_⟩
  · refine orderedTrace_append _ _ (orderedTrace_progTrace ops) ?_
    unfold orderedTrace
    intro j q hj
    exfalso
    rcases j with _ | j <;> simp at hj
  · intro op
    cases op <;> simp [callTrace]
